import Mathlib

/-!
Verification of `svn2git_ignore.py` against its specification.

The program reads `svn:ignore` properties from an SVN working copy and emits
an equivalent `.gitignore`.  This file gives a shallow embedding of the
program: Python strings are modelled as `List Char`, the external `svn`
tool is modelled as an oracle (`Env`) supplying the raw stdout of each
invocation (`none` models a `subprocess.CalledProcessError`), and each
Python function is translated into a Lean function of the same name.
-/

namespace Svn2Git

/-- Model of a Python string: a list of characters. -/
abbrev Str := List Char

/-- The string `"."` (`os.curdir`). -/
def dot : Str := ['.']

/-- The string `".."` (`os.pardir`). -/
def pardir : Str := ['.', '.']

/-- The whitespace characters recognised by Python's `str.strip()`
(restricted to the ASCII whitespace set). -/
def isPySpace (c : Char) : Bool :=
  c = ' ' || c = '\t' || c = '\n' || c = '\r' || c = '\x0b' || c = '\x0c'

/-- Python `str.strip()`: remove leading and trailing whitespace. -/
def pyStrip (l : Str) : Str :=
  ((l.dropWhile isPySpace).reverse.dropWhile isPySpace).reverse

/-- Accumulator-based worker for `pySplitlines`. -/
def splitlinesAux : Str → Str → List Str
  | acc, [] => if acc.isEmpty then [] else [acc.reverse]
  | acc, '\r' :: '\n' :: rest => acc.reverse :: splitlinesAux [] rest
  | acc, '\n' :: rest => acc.reverse :: splitlinesAux [] rest
  | acc, '\r' :: rest => acc.reverse :: splitlinesAux [] rest
  | acc, c :: rest => splitlinesAux (c :: acc) rest

/-- Python `str.splitlines()`, restricted to the line boundaries `\n`,
`\r\n` and `\r` (the only ones that occur in `svn` output):
a trailing line break produces no extra empty line, and the empty
string yields no lines at all. -/
def pySplitlines (l : Str) : List Str := splitlinesAux [] l

/-- Fuelled worker for `pyReplace`.  Each step consumes at least one
character of the subject string (the patterns used by the program are
never empty), so fuel equal to the length of the subject suffices. -/
def pyReplaceFuel (pat rep : Str) : Nat → Str → Str
  | _, [] => []
  | 0, l => l
  | fuel + 1, c :: cs =>
      if pat ≠ [] ∧ pat.isPrefixOf (c :: cs) then
        rep ++ pyReplaceFuel pat rep fuel ((c :: cs).drop pat.length)
      else
        c :: pyReplaceFuel pat rep fuel cs

/-- Python `str.replace(pat, rep)` for a non-empty `pat`: left-to-right,
non-overlapping replacement of every occurrence. -/
def pyReplace (l pat rep : Str) : Str := pyReplaceFuel pat rep l.length l

/-- Index of the last occurrence of `c` (Python `str.rfind`), if any. -/
def rfindChar (c : Char) : Str → Option Nat
  | [] => none
  | x :: xs =>
      match rfindChar c xs with
      | some i => some (i + 1)
      | none => if x = c then some 0 else none

/-- Python `str.rstrip('/')`. -/
def dropTrailingSlashes (l : Str) : Str :=
  (l.reverse.dropWhile (fun c => c = '/')).reverse

/-- `posixpath.dirname`: everything up to the last `/`, with trailing
slashes stripped unless the result consists only of slashes. -/
def dirname (p : Str) : Str :=
  match rfindChar '/' p with
  | none => []
  | some k =>
      if p.take (k + 1) ≠ [] ∧ (p.take (k + 1)).any (fun c => c ≠ '/') then
        dropTrailingSlashes (p.take (k + 1))
      else p.take (k + 1)

/-- `posixpath.basename`: everything after the last `/`. -/
def basename (p : Str) : Str :=
  match rfindChar '/' p with
  | none => p
  | some k => p.drop (k + 1)

/-- Accumulator-based worker for `splitComps`: Python `str.split('/')`. -/
def splitCharAux : Str → Str → List Str
  | acc, [] => [acc.reverse]
  | acc, '/' :: rest => acc.reverse :: splitCharAux [] rest
  | acc, c :: rest => splitCharAux (c :: acc) rest

/-- The non-empty components of a `/`-separated path
(`[x for x in p.split(sep) if x]` in `posixpath.relpath`). -/
def splitComps (p : Str) : List Str :=
  (splitCharAux [] p).filter (fun x => x ≠ [])

/-- Length of the longest common prefix of two component lists
(`len(commonprefix([start_list, path_list]))`). -/
def commonPrefixLen : List Str → List Str → Nat
  | a :: as, b :: bs => if a = b then commonPrefixLen as bs + 1 else 0
  | _, _ => 0

/-- `posixpath.relpath p start`, parameterised by the (cwd-dependent)
`os.path.abspath` function `ap` the library applies to both arguments. -/
def relpath (ap : Str → Str) (p start : Str) : Str :=
  let sl := splitComps (ap start)
  let pl := splitComps (ap p)
  let i := commonPrefixLen sl pl
  let rel := List.replicate (sl.length - i) pardir ++ pl.drop i
  if rel = [] then dot else List.intercalate ['/'] rel

/-! ### `fnmatch` glob matching

`fnmatch.fnmatch(name, pat)` on POSIX (where `os.path.normcase` is the
identity): `*` matches any sequence, `?` any single character, `[...]` a
character class with optional leading `!` negation and `a-b` ranges; an
unmatched `[` is a literal. -/

/-- Membership of a character in the body of a character class. -/
def inClass : Str → Char → Bool
  | [], _ => false
  | a :: '-' :: b :: rest, c => (a ≤ c ∧ c ≤ b) || inClass rest c
  | a :: rest, c => (a = c) || inClass rest c

/-- Split a class body at the closing `]`, if present. -/
def breakAtRBracket : Str → Option (Str × Str)
  | [] => none
  | ']' :: t => some ([], t)
  | c :: t =>
      match breakAtRBracket t with
      | some (a, b) => some (c :: a, b)
      | none => none

/-- Read a class body after the opening `[`: a first `]` is part of the
body (as in `fnmatch.translate`). -/
def classBody : Str → Option (Str × Str)
  | ']' :: t2 =>
      match breakAtRBracket t2 with
      | some (a, b) => some (']' :: a, b)
      | none => none
  | t => breakAtRBracket t

/-- Parse the part of a pattern following `[`: negation flag, class body
and the remainder of the pattern. -/
def splitClass : Str → Option (Bool × Str × Str)
  | '!' :: t =>
      match classBody t with
      | some (a, b) => some (true, a, b)
      | none => none
  | l =>
      match classBody l with
      | some (a, b) => some (false, a, b)
      | none => none

/-- Fuelled glob matcher, `globMatchFuel fuel pat name`.  Every recursive
call strictly decreases `pat.length + name.length`, so fuel exceeding
that sum is enough. -/
def globMatchFuel : Nat → Str → Str → Bool
  | 0, _, _ => false
  | _ + 1, [], s => s.isEmpty
  | fuel + 1, '*' :: ps, s =>
      globMatchFuel fuel ps s ||
        (match s with
         | [] => false
         | _ :: cs => globMatchFuel fuel ('*' :: ps) cs)
  | fuel + 1, '?' :: ps, s =>
      (match s with
       | [] => false
       | _ :: cs => globMatchFuel fuel ps cs)
  | fuel + 1, '[' :: ps, s =>
      (match splitClass ps with
       | some (neg, cls, rest) =>
           (match s with
            | [] => false
            | c :: cs => (neg != inClass cls c) && globMatchFuel fuel rest cs)
       | none =>
           match s with
           | '[' :: cs => globMatchFuel fuel ps cs
           | _ => false)
  | fuel + 1, p :: ps, s =>
      (match s with
       | [] => false
       | c :: cs => (p == c) && globMatchFuel fuel ps cs)

/-- `fnmatch.fnmatch(name, pat)` (case-sensitive, as on POSIX). -/
def fnmatchB (name pat : Str) : Bool :=
  globMatchFuel (name.length + pat.length + 1) pat name

/-! ### The external tool, modelled as an oracle

Each `subprocess.run(['svn', ...])` invocation is modelled by a field of
`Env`: the raw stdout on success, `none` for a `CalledProcessError`.
`os.path.abspath` depends on the current working directory and is kept
abstract as the field `abspath`. -/

/-- The environment of one run: the outcome of the `svn info` probe, the
stdout of `svn propget svn:ignore <p>` and of
`svn propget svn:ignore -R <p>` for each path `p`, and `os.path.abspath`. -/
structure Env where
  infoOk : Bool
  propget : Str → Option Str
  bulk : Str → Option Str
  abspath : Str → Str

/-! ### Property Reader -/

/-- `get_svn_ignore`, applied to the outcome of its `svn propget` call:
returns `result.stdout.strip()` if that is non-empty, otherwise `None`;
a `CalledProcessError` also yields `None`. -/
def get_svn_ignore (q : Option Str) : Option Str :=
  match q with
  | none => none
  | some out => if pyStrip out = [] then none else some (pyStrip out)

/-- Python dict assignment `m[k] = v` on an insertion-ordered
association list: overwrite in place if the key exists, else append. -/
def dictInsert (m : List (Str × Str)) (k v : Str) : List (Str × Str) :=
  match m with
  | [] => [(k, v)]
  | (k', v') :: rest =>
      if k' = k then (k', v) :: rest else (k', v') :: dictInsert rest k v

/-- First-match association-list lookup (`k in m` / `m[k]`). -/
def lookupD (m : List (Str × Str)) (k : Str) : Option Str :=
  match m with
  | [] => none
  | (k', v') :: rest => if k' = k then some v' else lookupD rest k

/-- The match of the regex `r'^(.*) - (.+)$'` against one line: the
greedy first group splits at the last occurrence of `" - "` that is
followed by at least one character. -/
def dirLineMatch : Str → Option (Str × Str)
  | [] => none
  | c :: rest =>
      match dirLineMatch rest with
      | some (g1, g2) => some (c :: g1, g2)
      | none =>
          if [' ', '-', ' '].isPrefixOf (c :: rest) ∧ (c :: rest).drop 3 ≠ [] then
            some ([], (c :: rest).drop 3)
          else none

/-- `if current_dir and current_ignores:
ignores[current_dir] = '\n'.join(current_ignores).strip()` -/
def saveCurrent (ign : List (Str × Str)) (cd : Option Str) (ci : List Str) :
    List (Str × Str) :=
  match cd with
  | some d =>
      if d ≠ [] ∧ ci ≠ [] then dictInsert ign d (pyStrip (List.intercalate ['\n'] ci))
      else ign
  | none => ign

/-- The line loop of `get_all_svn_ignores`: state is the current
directory, its accumulated value lines, and the dict built so far. -/
def parseBulk (ap : Str → Str) : List Str → Option Str → List Str →
    List (Str × Str) → List (Str × Str)
  | [], cd, ci, ign => saveCurrent ign cd ci
  | line :: rest, cd, ci, ign =>
      if pyStrip line = [] then parseBulk ap rest cd ci ign
      else
        match dirLineMatch line with
        | some (g1, g2) =>
            parseBulk ap rest (some (ap (pyStrip g1))) [pyStrip g2]
              (saveCurrent ign cd ci)
        | none =>
            match cd with
            | some _ => parseBulk ap rest cd (ci ++ [pyStrip line]) ign
            | none => parseBulk ap rest cd ci ign

/-- `get_all_svn_ignores`, applied to the stdout of its recursive
`svn propget` call: parse the `"path - value"` grouping into a dict; a
`CalledProcessError` yields the empty dict. -/
def get_all_svn_ignores (ap : Str → Str) (q : Option Str) : List (Str × Str) :=
  match q with
  | none => []
  | some out => parseBulk ap (pySplitlines out) none [] []

/-! ### Tree Walker / Pruner (`process_directory`) -/

/-- `rel_path = os.path.relpath(d, base_path)` followed by the source's
`rel_path = '.' if rel_path == '.' else rel_path`. -/
def relAdj (ap : Str → Str) (d base : Str) : Str :=
  let r := relpath ap d base
  if r = dot then dot else r

/-- Number of `os.sep` occurrences, `d.count(os.sep)` with `os.sep = '/'`. -/
def countSlash (l : Str) : Nat := l.count '/'

/-- The depth computed at lines 105–108 of the source:
`0` for `'.'`, else `rel_path.count(os.sep) + 1`. -/
def depthOf (ap : Str → Str) (base d : Str) : Int :=
  if relAdj ap d base = dot then 0 else (countSlash (relAdj ap d base) : Int) + 1

/-- `[p.strip() for p in all_ignores[parent].splitlines() if p.strip()]`. -/
def patternLines (v : Str) : List Str :=
  (pySplitlines v).filterMap (fun l =>
    let s := pyStrip l
    if s = [] then none else some s)

/-- One ancestor check of the pruning loop: `parent in all_ignores` and
some pattern of `all_ignores[parent]` glob-matches `basename(d)`. -/
def ancestorHit (all : List (Str × Str)) (d par : Str) : Bool :=
  match lookupD all par with
  | some v => (patternLines v).any (fun pat => fnmatchB (basename d) pat)
  | none => false

/-- The `while` loop of lines 114–123, as a fuelled recursion.  Each
continuing iteration replaces `parent` by `dirname parent`, which is
strictly shorter whenever it differs from `parent`, so fuel
`d.length + 1` (the starting parent `dirname d` is no longer than `d`)
never runs out before the loop's own exit conditions fire. -/
def pruneWhile (all : List (Str × Str)) (base d : Str) : Nat → Str → Bool
  | 0, _ => false
  | fuel + 1, parent =>
      if parent ≠ [] ∧ parent ≠ d ∧ base.isPrefixOf parent then
        if ancestorHit all d parent then true
        else if dirname parent = parent then false
        else pruneWhile all base d fuel (dirname parent)
      else false

/-- `skip` as computed for candidate `d`: the pruning walk starting at
`os.path.dirname(d)`. -/
def isSkipped (all : List (Str × Str)) (base d : Str) : Bool :=
  pruneWhile all base d (d.length + 1) (dirname d)

/-- The chain of ancestors the pruning loop visits (ignoring its
early exit on a match, which cannot change the resulting boolean). -/
def walkChain (base d : Str) : Nat → Str → List Str
  | 0, _ => []
  | fuel + 1, parent =>
      if parent ≠ [] ∧ parent ≠ d ∧ base.isPrefixOf parent then
        parent ::
          (if dirname parent = parent then []
           else walkChain base d fuel (dirname parent))
      else []

/-- The ancestors of `d` checked by the pruning loop, outermost first. -/
def ancestors (base d : Str) : List Str :=
  walkChain base d (d.length + 1) (dirname d)

/-- Stable insertion for `sortKeysBy`. -/
def insertByKey (f : Str → Nat) (x : Str) : List Str → List Str
  | [] => [x]
  | y :: ys => if f x ≤ f y then x :: y :: ys else y :: insertByKey f x ys

/-- Python `sorted(l, key=f)`: stable ascending sort by `f`. -/
def sortKeysBy (f : Str → Nat) (l : List Str) : List Str :=
  l.foldr (insertByKey f) []

/-- The keys of the dict, in insertion order (`all_ignores.keys()`). -/
def keysOf (m : List (Str × Str)) : List Str := m.map Prod.fst

/-- The body of the `for d in sorted_dirs` loop for one candidate `d`:
`none` when the candidate is skipped (depth bound, pruning, or empty
value), otherwise the `(rel_path, ignore_config)` pair it appends. -/
def emitEntry (all : List (Str × Str)) (ap : Str → Str) (base : Str)
    (max_depth : Int) (d : Str) : Option (Str × Str) :=
  if max_depth > 0 ∧ depthOf ap base d > max_depth then none
  else if isSkipped all base d then none
  else
    match lookupD all d with
    | some cfg => if cfg = [] then none else some (relAdj ap d base, cfg)
    | none => none

/-- The recursive branch of `process_directory`, starting from the
already-parsed dict: sort the keys by separator count (stably, so ties
keep dict insertion order) and run the loop. -/
def processRecursive (all : List (Str × Str)) (ap : Str → Str) (base : Str)
    (max_depth : Int) : List (Str × Str) :=
  (sortKeysBy countSlash (keysOf all)).filterMap (emitEntry all ap base max_depth)

/-- `process_directory(path, recursive, max_depth, threads)`.  The
`threads` parameter is accepted but never used by the body, exactly as
in the source. -/
def process_directory (env : Env) (path : Str) (recursive : Bool)
    (max_depth threads : Int) : List (Str × Str) :=
  let base_path := env.abspath path
  if recursive = false then
    match get_svn_ignore (env.propget path) with
    | some cfg => [(relAdj env.abspath path base_path, cfg)]
    | none => []
  else
    processRecursive (get_all_svn_ignores env.abspath (env.bulk path))
      env.abspath base_path max_depth

/-! ### Converter (`convert_to_gitignore`) -/

/-- `norm_path = path.replace(os.sep, '/') if path != '.' else '.'`
(with `os.sep = '/'`). -/
def normPath (path : Str) : Str :=
  if path ≠ dot then pyReplace path ['/'] ['/'] else dot

/-- The header comment `f"\n# {norm_path} 目录的忽略规则"`. -/
def headerFor (np : Str) : Str :=
  '\n' :: '#' :: ' ' :: (np ++ (" 目录的忽略规则").toList)

/-- The element appended for one raw line of a directory's value:
`none` when the stripped line is empty or starts with `#`, else the
verbatim pattern for the root or the slash-normalised
`f"{norm_path}/{pattern}"` otherwise. -/
def lineFor (np : Str) (l : Str) : Option Str :=
  let pattern := pyStrip l
  if pattern = [] then none
  else if ['#'].isPrefixOf pattern then none
  else if np = dot then some pattern
  else some (pyReplace (pyReplace (np ++ '/' :: pattern) ['\\'] ['/'])
    ['/', '/'] ['/'])

/-- The list `gitignore_content` built by `convert_to_gitignore`. -/
def convertLines (cfgs : List (Str × Str)) : List Str :=
  cfgs.foldl (fun acc pc =>
    let np := normPath pc.1
    let acc1 := if np ≠ dot then acc ++ [headerFor np] else acc
    (pySplitlines pc.2).foldl (fun a l =>
      match lineFor np l with
      | some e => a ++ [e]
      | none => a) acc1) []

/-- `convert_to_gitignore`: the built list joined with `'\n'`. -/
def convert_to_gitignore (cfgs : List (Str × Str)) : Str :=
  List.intercalate ['\n'] (convertLines cfgs)

/-- Everything one `(path, config)` pair contributes to
`gitignore_content`: the header (for non-root paths) followed by the
kept pattern lines. -/
def segmentFor (pc : Str × Str) : List Str :=
  let np := normPath pc.1
  (if np ≠ dot then [headerFor np] else []) ++
    (pySplitlines pc.2).filterMap (lineFor np)

/-- The output line the claim predicts for pattern `p` of non-root
directory `d`: `d + "/" + p` with backslashes replaced by forward
slashes and doubled slashes collapsed to one. -/
def claimLine (d p : Str) : Str :=
  pyReplace (pyReplace (d ++ '/' :: p) ['\\'] ['/']) ['/', '/'] ['/']

/-- The lines the claim predicts for a non-root pair `(d, block)`: one
`claimLine` per line of `block` that is non-empty after trimming and
does not start with `#`, in declaration order. -/
def claimEmits (d block : Str) : List Str :=
  (pySplitlines block).filterMap (fun l =>
    if pyStrip l = [] ∨ ['#'].isPrefixOf (pyStrip l) then none
    else some (claimLine d (pyStrip l)))

/-- The lines the claim predicts for the root pair: each kept pattern
line verbatim (trimmed, unprefixed). -/
def rootEmits (block : Str) : List Str :=
  (pySplitlines block).filterMap (fun l =>
    if pyStrip l = [] ∨ ['#'].isPrefixOf (pyStrip l) then none
    else some (pyStrip l))

/-- The loop body with the depth test removed, used to state that a
`max_depth` of `0` means unlimited. -/
def emitEntryUnbounded (all : List (Str × Str)) (ap : Str → Str) (base : Str)
    (d : Str) : Option (Str × Str) :=
  if isSkipped all base d then none
  else
    match lookupD all d with
    | some cfg => if cfg = [] then none else some (relAdj ap d base, cfg)
    | none => none

/-! ### CLI command (`convert`) -/

/-- The observable outcome of the `convert` command: the early return on
a failed `svn info` probe (with its error message on stderr), the early
return when nothing was collected, or a write of the rendered text. -/
inductive ConvertOutcome where
  | notWorkingCopy : ConvertOutcome
  | noConfigs : ConvertOutcome
  | written : Str → ConvertOutcome
deriving DecidableEq

/-- The `convert` command of the CLI: abort if the `svn info` probe
failed; otherwise clamp `threads` to 10 (in recursive mode), collect the
configs, return without writing when none were found, and otherwise
write the rendered text. -/
def convertCmd (env : Env) (path : Str) (recursive : Bool)
    (max_depth threads : Int) : ConvertOutcome :=
  if env.infoOk = false then ConvertOutcome.notWorkingCopy
  else if process_directory env path recursive max_depth
      (if recursive ∧ threads > 10 then 10 else threads) = [] then
    ConvertOutcome.noConfigs
  else
    ConvertOutcome.written (convert_to_gitignore
      (process_directory env path recursive max_depth
        (if recursive ∧ threads > 10 then 10 else threads)))

/-- The content of the output file after a run, given its previous
content: `open(output_file, 'w')` replaces the whole file, and the two
early returns leave it untouched. -/
def runConvert (env : Env) (prev : Str) (path : Str) (recursive : Bool)
    (max_depth threads : Int) : Str :=
  match convertCmd env path recursive max_depth threads with
  | ConvertOutcome.written c => c
  | _ => prev

/-! ### Helper lemmas -/

/-- The inner pattern loop of `convert_to_gitignore` appends exactly the
kept lines. -/
lemma innerFoldl_eq (np : Str) (lines : List Str) :
    ∀ acc : List Str,
      lines.foldl (fun a l =>
        match lineFor np l with
        | some e => a ++ [e]
        | none => a) acc = acc ++ lines.filterMap (lineFor np) := by
  induction lines with
  | nil => intro acc; simp
  | cons l t ih =>
      intro acc
      simp only [List.foldl_cons, List.filterMap_cons]
      cases h : lineFor np l with
      | none => simp [h, ih acc]
      | some e => simp [h, ih (acc ++ [e])]

/-- The outer loop of `convert_to_gitignore` appends, for each pair, its
header (for non-root paths) and its kept lines. -/
lemma convertLines_aux (cfgs : List (Str × Str)) :
    ∀ acc : List Str,
      cfgs.foldl (fun acc pc =>
        let np := normPath pc.1
        let acc1 := if np ≠ dot then acc ++ [headerFor np] else acc
        (pySplitlines pc.2).foldl (fun a l =>
          match lineFor np l with
          | some e => a ++ [e]
          | none => a) acc1) acc = acc ++ (cfgs.map segmentFor).flatten := by
  induction cfgs with
  | nil => intro acc; simp
  | cons pc t ih =>
      intro acc
      simp only [List.foldl_cons, List.map_cons, List.flatten_cons]
      rw [innerFoldl_eq, ih]
      unfold segmentFor
      by_cases h : normPath pc.1 ≠ dot <;> simp [h, List.append_assoc]

/-- `gitignore_content` is the concatenation of the per-pair segments. -/
lemma convertLines_eq (cfgs : List (Str × Str)) :
    convertLines cfgs = (cfgs.map segmentFor).flatten := by
  unfold convertLines
  simpa using convertLines_aux cfgs []

/-- Insertion by key preserves membership. -/
lemma mem_insertByKey (f : Str → Nat) (x : Str) :
    ∀ (l : List Str) (y : Str), y ∈ insertByKey f x l ↔ y = x ∨ y ∈ l := by
  intro l
  induction l with
  | nil => intro y; simp [insertByKey]
  | cons z t ih =>
      intro y
      unfold insertByKey
      by_cases h : f x ≤ f z
      · simp [h]
      · simp [h, ih y]
        tauto

/-- The stable sort is a permutation as far as membership goes. -/
lemma mem_sortKeysBy (f : Str → Nat) :
    ∀ (l : List Str) (y : Str), y ∈ sortKeysBy f l ↔ y ∈ l := by
  intro l
  induction l with
  | nil => intro y; simp [sortKeysBy]
  | cons z t ih =>
      intro y
      unfold sortKeysBy at ih ⊢
      rw [List.foldr_cons, mem_insertByKey, ih]
      simp

/-- Replacing a single character by itself is the identity. -/
lemma pyReplaceFuel_self (c : Char) :
    ∀ (fuel : Nat) (l : Str), l.length ≤ fuel → pyReplaceFuel [c] [c] fuel l = l := by
  intro fuel
  induction fuel with
  | zero =>
      intro l hl
      cases l with
      | nil => rfl
      | cons x xs => simp at hl
  | succ n ih =>
      intro l hl
      cases l with
      | nil => rfl
      | cons x xs =>
          simp only [pyReplaceFuel]
          by_cases h : c = x
          · subst h
            have hp : [c].isPrefixOf (c :: xs) = true := by
              simp [List.isPrefixOf]
            simp only [ne_eq, List.cons_ne_nil, not_false_iff, true_and, hp,
              if_pos, List.length_cons, List.drop_succ_cons, List.drop_zero]
            have := ih xs (by simpa using Nat.le_of_succ_le_succ hl)
            simp [this]
          · have hp : [c].isPrefixOf (x :: xs) = false := by
              simp [List.isPrefixOf]
              intro hcx
              exact absurd hcx h
            simp only [ne_eq, List.cons_ne_nil, not_false_iff, true_and, hp,
              Bool.false_eq_true, if_false]
            rw [ih xs (by simpa using Nat.le_of_succ_le_succ hl)]

/-- `path.replace('/', '/')` is the identity, so `norm_path` equals the
path itself for non-root entries. -/
lemma normPath_eq_self {d : Str} (h : d ≠ dot) : normPath d = d := by
  unfold normPath pyReplace
  simp [h, pyReplaceFuel_self '/' d.length d le_rfl]

/-- The pruning loop returns `true` exactly when some ancestor on its
walk (collected in `walkChain`) has a matching pattern: the loop's
early exit on the first match does not change the resulting boolean. -/
lemma pruneWhile_eq_any (all : List (Str × Str)) (base d : Str) :
    ∀ (fuel : Nat) (parent : Str),
      pruneWhile all base d fuel parent
        = (walkChain base d fuel parent).any (ancestorHit all d) := by
  intro fuel
  induction fuel with
  | zero => intro parent; simp [pruneWhile, walkChain]
  | succ n ih =>
      intro parent
      unfold pruneWhile walkChain
      by_cases hc : parent ≠ [] ∧ parent ≠ d ∧ base.isPrefixOf parent = true
      · rw [if_pos hc, if_pos hc, List.any_cons]
        by_cases hh : ancestorHit all d parent = true
        · rw [if_pos hh, hh, Bool.true_or]
        · have hh' : ancestorHit all d parent = false := by
            cases hab : ancestorHit all d parent
            · rfl
            · exact absurd hab hh
          rw [if_neg hh, hh', Bool.false_or]
          by_cases hnp : dirname parent = parent
          · rw [if_pos hnp, if_pos hnp, List.any_nil]
          · rw [if_neg hnp, if_neg hnp, ih]
      · rw [if_neg hc, if_neg hc, List.any_nil]

/-- `skip` for candidate `d` is: some checked ancestor has a matching
pattern. -/
lemma isSkipped_eq_any (all : List (Str × Str)) (base d : Str) :
    isSkipped all base d = (ancestors base d).any (ancestorHit all d) :=
  pruneWhile_eq_any all base d (d.length + 1) (dirname d)

/-- Shape of a successful loop iteration: the emitted pair carries the
adjusted relative path and the directory's non-empty dict value, the
candidate was not pruned, and a positive depth bound was respected. -/
lemma emitEntry_eq_some {all : List (Str × Str)} {ap : Str → Str} {base : Str}
    {max_depth : Int} {d : Str} {pr : Str × Str}
    (h : emitEntry all ap base max_depth d = some pr) :
    pr.1 = relAdj ap d base ∧ lookupD all d = some pr.2 ∧ pr.2 ≠ [] ∧
      isSkipped all base d = false ∧
      (0 < max_depth → depthOf ap base d ≤ max_depth) := by
  unfold emitEntry at h
  by_cases h1 : max_depth > 0 ∧ depthOf ap base d > max_depth
  · rw [if_pos h1] at h
    exact absurd h (by simp)
  · rw [if_neg h1] at h
    by_cases h2 : isSkipped all base d = true
    · rw [if_pos h2] at h
      exact absurd h (by simp)
    · rw [if_neg h2] at h
      cases hl : lookupD all d with
      | none => rw [hl] at h; exact absurd h (by simp)
      | some cfg =>
          rw [hl] at h
          change (if cfg = [] then none else some (relAdj ap d base, cfg)) = some pr at h
          by_cases h3 : cfg = []
          · rw [if_pos h3] at h
            exact absurd h (by simp)
          · rw [if_neg h3] at h
            have hpr : pr = (relAdj ap d base, cfg) := by
              exact (Option.some_inj.mp h).symm
            subst hpr
            refine ⟨rfl, rfl, h3, by simpa using h2, ?_⟩
            intro hmd
            rw [not_and] at h1
            have := h1 hmd
            omega

/-- Every output pair of the recursive walk comes from some dict key. -/
lemma mem_processRecursive {all : List (Str × Str)} {ap : Str → Str}
    {base : Str} {max_depth : Int} {pr : Str × Str}
    (h : pr ∈ processRecursive all ap base max_depth) :
    ∃ d, d ∈ keysOf all ∧ emitEntry all ap base max_depth d = some pr := by
  unfold processRecursive at h
  rcases List.mem_filterMap.mp h with ⟨d, hd, he⟩
  exact ⟨d, (mem_sortKeysBy countSlash (keysOf all) d).mp hd, he⟩

/-- The head of a `dropWhile` result fails the predicate. -/
lemma dropWhile_head_false {p : Char → Bool} :
    ∀ (l : Str) {c : Char} {t : Str}, l.dropWhile p = c :: t → p c = false := by
  intro l
  induction l with
  | nil => intro c t h; simp [List.dropWhile] at h
  | cons x xs ih =>
      intro c t h
      rw [List.dropWhile_cons] at h
      by_cases hx : p x = true
      · exact ih (by simpa [hx] using h)
      · have hx' : p x = false := by
          cases hpx : p x
          · rfl
          · exact absurd hpx hx
        simp [hx'] at h
        rw [← h.1]
        exact hx'

/-- `dropWhile` is idempotent. -/
lemma dropWhile_idem (p : Char → Bool) (l : Str) :
    (l.dropWhile p).dropWhile p = l.dropWhile p := by
  cases h : l.dropWhile p with
  | nil => simp
  | cons c t =>
      rw [List.dropWhile_cons, dropWhile_head_false l h]
      simp

/-- A string strips to the empty string iff it is all whitespace. -/
lemma pyStrip_eq_nil_iff {l : Str} :
    pyStrip l = [] ↔ ∀ c ∈ l, isPySpace c = true := by
  unfold pyStrip
  rw [List.reverse_eq_nil_iff, List.dropWhile_eq_nil_iff]
  constructor
  · intro h c hc
    cases hd : l.dropWhile isPySpace with
    | nil => exact List.dropWhile_eq_nil_iff.mp hd c hc
    | cons x t =>
        have hx : isPySpace x = false := dropWhile_head_false l hd
        have hx' : isPySpace x = true := by
          apply h
          rw [List.mem_reverse, hd]
          exact List.mem_cons_self x t
        rw [hx] at hx'
        exact absurd hx' (by simp)
  · intro h c hc
    rw [List.mem_reverse] at hc
    exact h c ((List.dropWhile_sublist isPySpace).mem hc)

/-- `str.strip()` is idempotent. -/
lemma pyStrip_idem (l : Str) : pyStrip (pyStrip l) = pyStrip l := by
  have hBrev : (pyStrip l).reverse = (l.dropWhile isPySpace).reverse.dropWhile isPySpace := by
    unfold pyStrip
    rw [List.reverse_reverse]
  have hstep1 : (pyStrip l).dropWhile isPySpace = pyStrip l := by
    cases hBc : pyStrip l with
    | nil => simp
    | cons b t =>
        have hpre : pyStrip l <+: l.dropWhile isPySpace := by
          rw [← List.reverse_suffix, hBrev]
          exact List.dropWhile_suffix isPySpace
        have hpb : isPySpace b = false := by
          rcases hpre with ⟨s, hs⟩
          rw [hBc] at hs
          exact dropWhile_head_false l hs.symm
        rw [List.dropWhile_cons, hpb]
        simp
  have hstep2 : (pyStrip l).reverse.dropWhile isPySpace = (pyStrip l).reverse := by
    rw [hBrev, dropWhile_idem]
  calc pyStrip (pyStrip l)
      = (((pyStrip l).dropWhile isPySpace).reverse.dropWhile isPySpace).reverse := rfl
    _ = ((pyStrip l).reverse.dropWhile isPySpace).reverse := by rw [hstep1]
    _ = (pyStrip l).reverse.reverse := by rw [hstep2]
    _ = pyStrip l := List.reverse_reverse _

/-- Characters of a split line are characters of the accumulator or of
the remaining input. -/
lemma mem_splitlinesAux_mem :
    ∀ (acc l : Str) (li : Str) (c : Char),
      li ∈ splitlinesAux acc l → c ∈ li → c ∈ acc ∨ c ∈ l := by
  intro acc l
  induction acc, l using splitlinesAux.induct with
  | case1 acc ha =>
      intro li c hli hc
      rw [splitlinesAux.eq_1, if_pos ha] at hli
      simp at hli
  | case2 acc ha =>
      intro li c hli hc
      rw [splitlinesAux.eq_1, if_neg ha] at hli
      rw [List.mem_singleton] at hli
      subst hli
      rw [List.mem_reverse] at hc
      exact Or.inl hc
  | case3 acc rest ih =>
      intro li c hli hc
      rw [splitlinesAux.eq_2] at hli
      rcases List.mem_cons.mp hli with h | h
      · subst h; rw [List.mem_reverse] at hc; exact Or.inl hc
      · rcases ih li c h hc with h' | h'
        · simp at h'
        · simp [h']
  | case4 acc rest ih =>
      intro li c hli hc
      rw [splitlinesAux.eq_3] at hli
      rcases List.mem_cons.mp hli with h | h
      · subst h; rw [List.mem_reverse] at hc; exact Or.inl hc
      · rcases ih li c h hc with h' | h'
        · simp at h'
        · simp [h']
  | case5 acc rest hside ih =>
      intro li c hli hc
      rw [splitlinesAux.eq_4 acc rest hside] at hli
      rcases List.mem_cons.mp hli with h | h
      · subst h; rw [List.mem_reverse] at hc; exact Or.inl hc
      · rcases ih li c h hc with h' | h'
        · simp at h'
        · simp [h']
  | case6 acc x rest hs1 hs2 hs3 ih =>
      intro li c hli hc
      rw [splitlinesAux.eq_5 acc x rest hs1 hs2 hs3] at hli
      rcases ih li c hli hc with h' | h'
      · rcases List.mem_cons.mp h' with h'' | h''
        · subst h''; simp
        · exact Or.inl h''
      · simp [h']

/-- Every line produced by `splitlines` of an all-whitespace string is
itself all whitespace, so it contributes no pruning pattern. -/
lemma patternLines_of_space {v : Str} (h : pyStrip v = []) :
    patternLines v = [] := by
  have hall : ∀ c ∈ v, isPySpace c = true := pyStrip_eq_nil_iff.mp h
  unfold patternLines
  rw [List.filterMap_eq_nil_iff]
  intro li hli
  have : pyStrip li = [] := by
    rw [pyStrip_eq_nil_iff]
    intro c hc
    rcases mem_splitlinesAux_mem [] v li c hli hc with h' | h'
    · simp at h'
    · exact hall c h'
  simp [this]

/-- Elements of `dictInsert m k v` are elements of `m` or carry the new
value. -/
lemma mem_dictInsert :
    ∀ (m : List (Str × Str)) (k v : Str) (kv : Str × Str),
      kv ∈ dictInsert m k v → kv ∈ m ∨ kv.2 = v := by
  intro m
  induction m with
  | nil =>
      intro k v kv h
      unfold dictInsert at h
      rw [List.mem_singleton] at h
      subst h
      exact Or.inr rfl
  | cons p rest ih =>
      intro k v kv h
      unfold dictInsert at h
      by_cases hk : p.1 = k
      · rw [if_pos hk] at h
        rcases List.mem_cons.mp h with h' | h'
        · subst h'; exact Or.inr rfl
        · exact Or.inl (List.mem_cons_of_mem p h')
      · rw [if_neg hk] at h
        rcases List.mem_cons.mp h with h' | h'
        · subst h'; exact Or.inl (List.mem_cons_self p rest)
        · rcases ih k v kv h' with h'' | h''
          · exact Or.inl (List.mem_cons_of_mem p h'')
          · exact Or.inr h''

/-- `saveCurrent` only inserts already-stripped values. -/
lemma mem_saveCurrent {ign : List (Str × Str)} {cd : Option Str} {ci : List Str}
    {kv : Str × Str} (hign : ∀ kv' ∈ ign, pyStrip kv'.2 = kv'.2)
    (h : kv ∈ saveCurrent ign cd ci) : pyStrip kv.2 = kv.2 := by
  unfold saveCurrent at h
  cases cd with
  | none => exact hign kv h
  | some dir =>
      change kv ∈ (if dir ≠ [] ∧ ci ≠ [] then
        dictInsert ign dir (pyStrip (List.intercalate ['\n'] ci)) else ign) at h
      by_cases hc : dir ≠ [] ∧ ci ≠ []
      · rw [if_pos hc] at h
        rcases mem_dictInsert ign dir _ kv h with h' | h'
        · exact hign kv h'
        · rw [h']
          exact pyStrip_idem _
      · rw [if_neg hc] at h
        exact hign kv h

/-- Every value stored by the bulk parser is already stripped: in
particular a whitespace-only property value is stored as the empty
string. -/
lemma parseBulk_values_stripped (ap : Str → Str) :
    ∀ (lines : List Str) (cd : Option Str) (ci : List Str)
      (ign : List (Str × Str)),
      (∀ kv ∈ ign, pyStrip kv.2 = kv.2) →
      ∀ kv ∈ parseBulk ap lines cd ci ign, pyStrip kv.2 = kv.2 := by
  intro lines
  induction lines with
  | nil =>
      intro cd ci ign hign kv h
      exact mem_saveCurrent hign h
  | cons line rest ih =>
      intro cd ci ign hign kv h
      cases cd with
      | some cdir =>
          rw [parseBulk.eq_2] at h
          by_cases hs : pyStrip line = []
          · rw [if_pos hs] at h
            exact ih _ _ _ hign kv h
          · rw [if_neg hs] at h
            cases hm : dirLineMatch line with
            | some g =>
                obtain ⟨g1, g2⟩ := g
                simp only [hm] at h
                exact ih _ _ _ (fun kv' hkv' => mem_saveCurrent hign hkv') kv h
            | none =>
                simp only [hm] at h
                exact ih _ _ _ hign kv h
      | none =>
          rw [parseBulk.eq_3] at h
          by_cases hs : pyStrip line = []
          · rw [if_pos hs] at h
            exact ih _ _ _ hign kv h
          · rw [if_neg hs] at h
            cases hm : dirLineMatch line with
            | some g =>
                obtain ⟨g1, g2⟩ := g
                simp only [hm] at h
                exact ih _ _ _ (fun kv' hkv' => mem_saveCurrent hign hkv') kv h
            | none =>
                simp only [hm] at h
                exact ih _ _ _ hign kv h

/-- Values of `get_all_svn_ignores` are stripped. -/
lemma get_all_values_stripped (ap : Str → Str) (q : Option Str) :
    ∀ kv ∈ get_all_svn_ignores ap q, pyStrip kv.2 = kv.2 := by
  intro kv h
  cases q with
  | none => simp [get_all_svn_ignores] at h
  | some out =>
      exact parseBulk_values_stripped ap (pySplitlines out) none [] []
        (by intro kv' h'; simp at h') kv h

/-- For a non-root path the converter's per-line result is exactly the
line the claim predicts. -/
lemma claimEmits_eq {d : Str} (hd : d ≠ dot) (block : Str) :
    (pySplitlines block).filterMap (lineFor (normPath d)) = claimEmits d block := by
  unfold claimEmits
  congr 1
  funext l
  rw [normPath_eq_self hd]
  unfold lineFor claimLine
  by_cases h1 : pyStrip l = []
  · simp [h1]
  · by_cases h2 : ['#'].isPrefixOf (pyStrip l) = true
    · simp [h1, h2]
    · simp [h1, h2, hd]

/-- The segment of any collected pair is a sublist of the full output
list. -/
lemma segment_sublist {cfgs : List (Str × Str)} {pc : Str × Str}
    (h : pc ∈ cfgs) : List.Sublist (segmentFor pc) (convertLines cfgs) := by
  rw [convertLines_eq]
  rcases List.append_of_mem h with ⟨s, t, rfl⟩
  rw [List.map_append, List.map_cons, List.flatten_append, List.flatten_cons]
  have h1 : List.Sublist (segmentFor pc)
      (segmentFor pc ++ (t.map segmentFor).flatten) :=
    List.sublist_append_left _ _
  have h2 : List.Sublist (segmentFor pc ++ (t.map segmentFor).flatten)
      ((s.map segmentFor).flatten
        ++ (segmentFor pc ++ (t.map segmentFor).flatten)) :=
    List.sublist_append_right _ _
  exact h1.trans h2

/-- The kept lines of a pair are a sublist of its segment. -/
lemma filterMap_sublist_segment (d block : Str) :
    List.Sublist ((pySplitlines block).filterMap (lineFor (normPath d))) (segmentFor (d, block)) := by
  unfold segmentFor
  exact List.sublist_append_right _ _

/-- With `max_depth = 0` the depth test never fires. -/
lemma emitEntry_zero (all : List (Str × Str)) (ap : Str → Str) (base d : Str) :
    emitEntry all ap base 0 d = emitEntryUnbounded all ap base d := by
  unfold emitEntry emitEntryUnbounded
  rw [if_neg (by simp : ¬((0 : Int) > 0 ∧ depthOf ap base d > (0 : Int)))]

/-! ### Fuel adequacy

The fuelled recursions (`pruneWhile`, `globMatchFuel`, `pyReplaceFuel`)
are fuel-independent once the fuel exceeds the stated bound, so they
model the unbounded Python loops faithfully. -/

/-- If `rfindChar` finds nothing, the character does not occur. -/
lemma rfindChar_none_not_mem {c : Char} :
    ∀ {l : Str}, rfindChar c l = none → c ∉ l := by
  intro l
  induction l with
  | nil => intro _ hmem; simp at hmem
  | cons x xs ih =>
      intro h hmem
      rw [rfindChar.eq_2] at h
      cases hr : rfindChar c xs with
      | some i =>
          rw [hr] at h
          exact absurd h (by simp)
      | none =>
          rw [hr] at h
          by_cases hx : x = c
          · rw [if_pos hx] at h
            exact absurd h (by simp)
          · rcases List.mem_cons.mp hmem with h' | h'
            · exact hx h'.symm
            · exact ih hr h'

/-- A successful `rfindChar` splits the string at the last occurrence. -/
lemma rfindChar_some_split {c : Char} :
    ∀ {l : Str} {k : Nat}, rfindChar c l = some k →
      ∃ pre suf : Str, l = pre ++ c :: suf ∧ pre.length = k ∧ c ∉ suf := by
  intro l
  induction l with
  | nil => intro k h; simp [rfindChar] at h
  | cons x xs ih =>
      intro k h
      rw [rfindChar.eq_2] at h
      cases hr : rfindChar c xs with
      | some i =>
          rw [hr] at h
          have hk : i + 1 = k := by
            change some (i + 1) = some k at h
            exact Option.some_inj.mp h
          obtain ⟨pre, suf, hsplit, hlen, hnm⟩ := ih hr
          refine ⟨x :: pre, suf, ?_, ?_, hnm⟩
          · rw [hsplit]
            rfl
          · simp [hlen, hk]
      | none =>
          rw [hr] at h
          by_cases hx : x = c
          · rw [if_pos hx] at h
            have hk : k = 0 := (Option.some_inj.mp h).symm
            refine ⟨[], xs, ?_, by simp [hk], rfindChar_none_not_mem hr⟩
            rw [hx]
            rfl
          · rw [if_neg hx] at h
            exact absurd h (by simp)

/-- `rstrip('/')` never lengthens a string. -/
lemma dropTrailingSlashes_length_le (l : Str) :
    (dropTrailingSlashes l).length ≤ l.length := by
  unfold dropTrailingSlashes
  calc (l.reverse.dropWhile (fun c => c = '/')).reverse.length
      = (l.reverse.dropWhile (fun c => c = '/')).length :=
        List.length_reverse _
    _ ≤ l.reverse.length := (List.dropWhile_sublist _).length_le
    _ = l.length := List.length_reverse _

/-- `rstrip('/')` strictly shortens a string that ends in `/`. -/
lemma dropTrailingSlashes_concat_lt (pre : Str) :
    (dropTrailingSlashes (pre ++ ['/'])).length < (pre ++ ['/']).length := by
  unfold dropTrailingSlashes
  have h1 : (pre ++ ['/']).reverse = '/' :: pre.reverse := by
    rw [List.reverse_append]
    rfl
  have h2 : ('/' :: pre.reverse).dropWhile (fun c => c = '/')
      = pre.reverse.dropWhile (fun c => c = '/') := by
    simp [List.dropWhile_cons]
  rw [h1, h2]
  calc (pre.reverse.dropWhile (fun c => c = '/')).reverse.length
      = (pre.reverse.dropWhile (fun c => c = '/')).length :=
        List.length_reverse _
    _ ≤ pre.reverse.length := (List.dropWhile_sublist _).length_le
    _ = pre.length := List.length_reverse _
    _ < (pre ++ ['/']).length := by simp

/-- When `dirname` changes a string it strictly shortens it, so the
pruning loop walks monotonically upward. -/
lemma dirname_length_lt {p : Str} (h : dirname p ≠ p) :
    (dirname p).length < p.length := by
  unfold dirname at h ⊢
  cases hr : rfindChar '/' p with
  | none =>
      rw [hr] at h
      change ([] : Str) ≠ p at h
      change ([] : Str).length < p.length
      cases p with
      | nil => exact absurd rfl h
      | cons a l => simp
  | some k =>
      rw [hr] at h
      change (if p.take (k + 1) ≠ [] ∧ (p.take (k + 1)).any (fun c => c ≠ '/') then
          dropTrailingSlashes (p.take (k + 1))
        else p.take (k + 1)) ≠ p at h
      change (if p.take (k + 1) ≠ [] ∧ (p.take (k + 1)).any (fun c => c ≠ '/') then
          dropTrailingSlashes (p.take (k + 1))
        else p.take (k + 1)).length < p.length
      obtain ⟨pre, suf, hsplit, hlen, hnm⟩ := rfindChar_some_split hr
      have htake : p.take (k + 1) = pre ++ ['/'] := by
        rw [hsplit, ← hlen, List.take_append_eq_append_take,
          List.take_of_length_le (by omega)]
        congr 1
        have h2 : pre.length + 1 - pre.length = 1 := by omega
        rw [h2]
        rfl
      by_cases hc : p.take (k + 1) ≠ [] ∧ (p.take (k + 1)).any (fun c => c ≠ '/') = true
      · rw [if_pos hc]
        rw [htake]
        calc (dropTrailingSlashes (pre ++ ['/'])).length
            < (pre ++ ['/']).length := dropTrailingSlashes_concat_lt pre
          _ ≤ p.length := by
              rw [hsplit]
              simp
      · rw [if_neg hc] at h ⊢
        rw [htake] at h ⊢
        have hsuf : suf ≠ [] := by
          intro hs
          apply h
          rw [hsplit, hs]
        have hpos : 0 < suf.length := List.length_pos.mpr hsuf
        rw [hsplit]
        simp only [List.length_append, List.length_cons, List.length_nil]
        omega

/-- `dirname` never lengthens a string. -/
lemma dirname_length_le (p : Str) : (dirname p).length ≤ p.length := by
  by_cases h : dirname p = p
  · rw [h]
  · exact le_of_lt (dirname_length_lt h)

/-- The pruning loop's result does not depend on the fuel, as long as it
exceeds the length of the starting parent: the walk is the unbounded
`while` loop of the source. -/
lemma pruneWhile_fuel_congr (all : List (Str × Str)) (base d : Str) :
    ∀ (f1 : Nat) (parent : Str) (f2 : Nat),
      parent.length < f1 → parent.length < f2 →
      pruneWhile all base d f1 parent = pruneWhile all base d f2 parent := by
  intro f1
  induction f1 with
  | zero => intro parent f2 h1 _; omega
  | succ n ih =>
      intro parent f2 h1 h2
      cases f2 with
      | zero => omega
      | succ m =>
          unfold pruneWhile
          by_cases hc : parent ≠ [] ∧ parent ≠ d ∧ base.isPrefixOf parent = true
          · rw [if_pos hc, if_pos hc]
            by_cases hh : ancestorHit all d parent = true
            · rw [if_pos hh, if_pos hh]
            · rw [if_neg hh, if_neg hh]
              by_cases hnp : dirname parent = parent
              · rw [if_pos hnp, if_pos hnp]
              · rw [if_neg hnp, if_neg hnp]
                have hlt := dirname_length_lt hnp
                exact ih (dirname parent) m (by omega) (by omega)
          · rw [if_neg hc, if_neg hc]

/-- Any fuel above the candidate's length computes the same `skip` as
`isSkipped`. -/
lemma isSkipped_fuel_adequate (all : List (Str × Str)) (base d : Str)
    (fuel : Nat) (h : d.length < fuel) :
    pruneWhile all base d fuel (dirname d) = isSkipped all base d := by
  unfold isSkipped
  have hle := dirname_length_le d
  exact pruneWhile_fuel_congr all base d fuel (dirname d) (d.length + 1)
    (by omega) (by omega)

/-- Splitting a class body consumes at least the closing bracket. -/
lemma breakAtRBracket_length :
    ∀ {t a b : Str}, breakAtRBracket t = some (a, b) → b.length < t.length := by
  intro t
  induction t with
  | nil => intro a b h; simp [breakAtRBracket] at h
  | cons c rest ih =>
      intro a b h
      by_cases hc : c = ']'
      · subst hc
        rw [breakAtRBracket.eq_2] at h
        have hb : rest = b := congrArg Prod.snd (Option.some_inj.mp h)
        rw [← hb]
        simp
      · rw [breakAtRBracket.eq_3 c rest (fun hh => hc hh)] at h
        cases hbr : breakAtRBracket rest with
        | some pr =>
            obtain ⟨a', b'⟩ := pr
            rw [hbr] at h
            have hb : b' = b := congrArg Prod.snd (Option.some_inj.mp h)
            have := ih hbr
            rw [hb] at this
            calc b.length < rest.length := this
              _ < (c :: rest).length := by simp
        | none =>
            rw [hbr] at h
            exact absurd h (by simp)

/-- A parsed class body leaves a strictly shorter remainder. -/
lemma classBody_length {t a b : Str} (h : classBody t = some (a, b)) :
    b.length < t.length := by
  cases t with
  | nil =>
      have hnil : classBody ([] : Str) = none := rfl
      rw [hnil] at h
      exact absurd h (by simp)
  | cons c t2 =>
      by_cases hc : c = ']'
      · subst hc
        rw [classBody.eq_1] at h
        cases hbr : breakAtRBracket t2 with
        | some pr =>
            obtain ⟨a', b'⟩ := pr
            rw [hbr] at h
            change some ((']' :: a', b') : Str × Str) = some (a, b) at h
            have hb : b' = b := congrArg Prod.snd (Option.some_inj.mp h)
            have := breakAtRBracket_length hbr
            rw [hb] at this
            calc b.length < t2.length := this
              _ < (']' :: t2).length := by simp
        | none =>
            rw [hbr] at h
            change (none : Option (Str × Str)) = some (a, b) at h
            exact absurd h (by simp)
      · rw [classBody.eq_2 (c :: t2)
          (by intro t' hh; exact hc (List.cons.injEq _ _ _ _ ▸ hh).1)] at h
        exact breakAtRBracket_length h

/-- The remainder after a parsed character class is strictly shorter
than the pattern tail. -/
lemma splitClass_length :
    ∀ {l : Str} {neg : Bool} {cls rest : Str},
      splitClass l = some (neg, cls, rest) → rest.length < l.length := by
  intro l neg cls rest h
  cases l with
  | nil =>
      rw [splitClass.eq_2 [] (by intro t hh; simp at hh)] at h
      exact absurd h (by simp [classBody.eq_def, breakAtRBracket])
  | cons c t =>
      by_cases hc : c = '!'
      · subst hc
        rw [splitClass.eq_1] at h
        cases hcb : classBody t with
        | some pr =>
            obtain ⟨a', b'⟩ := pr
            rw [hcb] at h
            have hb : b' = rest := congrArg (fun x => x.2.2) (Option.some_inj.mp h)
            have := classBody_length hcb
            rw [hb] at this
            calc rest.length < t.length := this
              _ < ('!' :: t).length := by simp
        | none =>
            rw [hcb] at h
            exact absurd h (by simp)
      · rw [splitClass.eq_2 (c :: t)
          (by intro t' hh; exact hc (List.cons.injEq _ _ _ _ ▸ hh).1)] at h
        cases hcb : classBody (c :: t) with
        | some pr =>
            obtain ⟨a', b'⟩ := pr
            rw [hcb] at h
            have hb : b' = rest := congrArg (fun x => x.2.2) (Option.some_inj.mp h)
            have := classBody_length hcb
            rw [hb] at this
            exact this
        | none =>
            rw [hcb] at h
            exact absurd h (by simp)

/-- The glob matcher's result does not depend on the fuel once it
exceeds `pat.length + s.length`: the fuelled matcher is the plain
recursive matcher. -/
lemma globMatchFuel_congr :
    ∀ (f1 : Nat) (pat s : Str) (f2 : Nat),
      pat.length + s.length < f1 → pat.length + s.length < f2 →
      globMatchFuel f1 pat s = globMatchFuel f2 pat s := by
  intro f1
  induction f1 with
  | zero => intro pat s f2 h1 _; omega
  | succ n ih =>
      intro pat s f2 h1 h2
      cases f2 with
      | zero => omega
      | succ m =>
          cases pat with
          | nil => rw [globMatchFuel.eq_2, globMatchFuel.eq_2]
          | cons p ps =>
              simp only [List.length_cons] at h1 h2
              by_cases hstar : p = '*'
              · subst hstar
                cases s with
                | nil =>
                    rw [globMatchFuel.eq_3, globMatchFuel.eq_3,
                      ih ps [] m (by simp; omega) (by simp; omega)]
                | cons c cs =>
                    simp only [List.length_cons] at h1 h2
                    rw [globMatchFuel.eq_4, globMatchFuel.eq_4,
                      ih ps (c :: cs) m (by simp; omega) (by simp; omega),
                      ih ('*' :: ps) cs m (by simp; omega) (by simp; omega)]
              · by_cases hq : p = '?'
                · subst hq
                  cases s with
                  | nil => rw [globMatchFuel.eq_5, globMatchFuel.eq_5]
                  | cons c cs =>
                      simp only [List.length_cons] at h1 h2
                      rw [globMatchFuel.eq_6, globMatchFuel.eq_6,
                        ih ps cs m (by omega) (by omega)]
                · by_cases hb : p = '['
                  · subst hb
                    cases s with
                    | nil =>
                        rw [globMatchFuel.eq_8 [] n ps (by intro cs hh; simp at hh),
                          globMatchFuel.eq_8 [] m ps (by intro cs hh; simp at hh)]
                    | cons c cs =>
                        simp only [List.length_cons] at h1 h2
                        by_cases hcl : c = '['
                        · subst hcl
                          rw [globMatchFuel.eq_7, globMatchFuel.eq_7]
                          cases hsc : splitClass ps with
                          | some t =>
                              obtain ⟨neg, cls, rest⟩ := t
                              have hrl := splitClass_length hsc
                              simp only [hsc]
                              rw [ih rest cs m (by omega) (by omega)]
                          | none =>
                              simp only [hsc]
                              exact ih ps cs m (by omega) (by omega)
                        · have hside : ∀ cs' : List Char,
                              c :: cs = '[' :: cs' → False := by
                            intro cs' hh
                            exact hcl (List.cons.injEq _ _ _ _ ▸ hh).1
                          rw [globMatchFuel.eq_8 (c :: cs) n ps hside,
                            globMatchFuel.eq_8 (c :: cs) m ps hside]
                          cases hsc : splitClass ps with
                          | some t =>
                              obtain ⟨neg, cls, rest⟩ := t
                              have hrl := splitClass_length hsc
                              simp only [hsc]
                              rw [ih rest cs m (by omega) (by omega)]
                          | none => simp only [hsc]
                  · cases s with
                    | nil =>
                        rw [globMatchFuel.eq_9 n p ps (fun hh => hstar hh)
                            (fun hh => hq hh) (fun hh => hb hh),
                          globMatchFuel.eq_9 m p ps (fun hh => hstar hh)
                            (fun hh => hq hh) (fun hh => hb hh)]
                    | cons c cs =>
                        simp only [List.length_cons] at h1 h2
                        rw [globMatchFuel.eq_10 n p ps c cs (fun hh => hstar hh)
                            (fun hh => hq hh) (fun hh => hb hh),
                          globMatchFuel.eq_10 m p ps c cs (fun hh => hstar hh)
                            (fun hh => hq hh) (fun hh => hb hh),
                          ih ps cs m (by omega) (by omega)]

/-- Any fuel above `pat.length + name.length` computes `fnmatchB`. -/
lemma fnmatchB_fuel_adequate (name pat : Str) (fuel : Nat)
    (h : pat.length + name.length < fuel) :
    globMatchFuel fuel pat name = fnmatchB name pat := by
  unfold fnmatchB
  exact globMatchFuel_congr fuel pat name (name.length + pat.length + 1)
    h (by omega)

/-- The replacement worker's result does not depend on the fuel once it
reaches the subject's length. -/
lemma pyReplaceFuel_congr (pat rep : Str) :
    ∀ (f1 : Nat) (l : Str) (f2 : Nat), l.length ≤ f1 → l.length ≤ f2 →
      pyReplaceFuel pat rep f1 l = pyReplaceFuel pat rep f2 l := by
  intro f1
  induction f1 with
  | zero =>
      intro l f2 h1 _
      have hl : l = [] := List.length_eq_zero.mp (Nat.le_zero.mp h1)
      subst hl
      cases f2 with
      | zero => rfl
      | succ m => rfl
  | succ n ih =>
      intro l f2 h1 h2
      cases l with
      | nil =>
          cases f2 with
          | zero => rfl
          | succ m => rfl
      | cons c cs =>
          simp only [List.length_cons] at h1 h2
          cases f2 with
          | zero => omega
          | succ m =>
              unfold pyReplaceFuel
              by_cases hp : pat ≠ [] ∧ pat.isPrefixOf (c :: cs) = true
              · rw [if_pos hp, if_pos hp]
                have hplen : 1 ≤ pat.length := by
                  rcases hp with ⟨hne, -⟩
                  cases pat with
                  | nil => exact absurd rfl hne
                  | cons a b => simp
                have hdl : ((c :: cs).drop pat.length).length ≤ cs.length := by
                  simp only [List.length_drop, List.length_cons]
                  omega
                rw [ih ((c :: cs).drop pat.length) m (by omega) (by omega)]
              · rw [if_neg hp, if_neg hp, ih cs m (by omega) (by omega)]

/-- Any fuel at or above the subject's length computes `pyReplace`. -/
lemma pyReplace_fuel_adequate (l pat rep : Str) (fuel : Nat)
    (h : l.length ≤ fuel) :
    pyReplaceFuel pat rep fuel l = pyReplace l pat rep := by
  unfold pyReplace
  exact pyReplaceFuel_congr pat rep fuel l l.length h le_rfl

/-! ### The claims -/

/-- Claim C1: for every collected pair `(d, block)` with `d ≠ "."`, each
line of `block` that is non-empty after trimming and does not start with
`#` contributes the output line `d + "/" + line` with backslashes
replaced by forward slashes and doubled slashes collapsed to one, in the
same relative order as declared (a sublist of the output list); and the
output decomposes into exactly the per-pair segments, so trimmed-empty
lines and `#`-lines produce no output line. -/
theorem claim_C1 (cfgs : List (Str × Str)) (d block : Str)
    (hmem : (d, block) ∈ cfgs) (hd : d ≠ dot) :
    List.Sublist (claimEmits d block) (convertLines cfgs) ∧
    convertLines cfgs = (cfgs.map segmentFor).flatten := by
  refine ⟨?_, convertLines_eq cfgs⟩
  rw [← claimEmits_eq hd block]
  exact (filterMap_sublist_segment d block).trans (segment_sublist hmem)

/-- Claim C1 witness: a concrete instance with a non-root directory. -/
theorem claim_C1_witness :
    ((("src".toList, " *.o \n\n# c\nbin".toList) : Str × Str)
        ∈ [((".".toList : Str), ("*.log".toList : Str)),
           ("src".toList, " *.o \n\n# c\nbin".toList)]) ∧
    ("src".toList : Str) ≠ dot ∧
    List.Sublist (claimEmits ("src".toList) (" *.o \n\n# c\nbin".toList))
      (convertLines [((".".toList : Str), ("*.log".toList : Str)),
           ("src".toList, " *.o \n\n# c\nbin".toList)]) :=
  ⟨by decide, by decide,
    (claim_C1 [((".".toList : Str), ("*.log".toList : Str)),
        ("src".toList, " *.o \n\n# c\nbin".toList)]
      ("src".toList) (" *.o \n\n# c\nbin".toList) (by decide) (by decide)).1⟩

/-- Claim C4: the root pair (`path = "."`) contributes exactly its kept
pattern lines, trimmed but otherwise verbatim, with no path prefix and
no directory-header comment, and these lines appear in the output in
order. -/
theorem claim_C4 (cfgs : List (Str × Str)) (block : Str)
    (hmem : (dot, block) ∈ cfgs) :
    segmentFor (dot, block) = rootEmits block ∧
    List.Sublist (rootEmits block) (convertLines cfgs) := by
  have hnp : normPath dot = dot := by
    unfold normPath
    simp
  have hseg : segmentFor (dot, block) = rootEmits block := by
    show (if normPath dot ≠ dot then [headerFor (normPath dot)] else []) ++
        (pySplitlines block).filterMap (lineFor (normPath dot)) = rootEmits block
    rw [hnp, if_neg (fun hcon => hcon rfl), List.nil_append]
    unfold rootEmits
    congr 1
    funext l
    unfold lineFor
    by_cases h1 : pyStrip l = []
    · simp [h1]
    · by_cases h2 : ['#'].isPrefixOf (pyStrip l) = true
      · simp [h1, h2]
      · simp [h1, h2]
  exact ⟨hseg, hseg ▸ segment_sublist hmem⟩

/-- Claim C4 witness: a concrete root block with noise lines. -/
theorem claim_C4_witness :
    (((dot, (" *.log \n\n# note\nbuild".toList : Str)) : Str × Str)
        ∈ [((dot : Str), (" *.log \n\n# note\nbuild".toList : Str))]) ∧
    segmentFor (dot, (" *.log \n\n# note\nbuild".toList : Str))
      = rootEmits (" *.log \n\n# note\nbuild".toList) :=
  ⟨by decide,
    (claim_C4 [((dot : Str), (" *.log \n\n# note\nbuild".toList : Str))]
      (" *.log \n\n# note\nbuild".toList) (by decide)).1⟩

/-- Claim C2 counterexample: with root `/r` carrying pattern `build`,
candidate `/r/build` has an ancestor whose pattern matches its base
name, so it is excluded — yet an entry for `/r/build/sub`, a directory
beneath it, still appears in the output, refuting the claim's "no entry
for any directory beneath d appears". -/
theorem claim_C2_counterexample :
    ((ancestors ("/r".toList) ("/r/build".toList)).any
      (ancestorHit
        [("/r".toList, "build".toList), ("/r/build".toList, "y".toList),
         ("/r/build/sub".toList, "x".toList)] ("/r/build".toList)) = true) ∧
    processRecursive
        [("/r".toList, "build".toList), ("/r/build".toList, "y".toList),
         ("/r/build/sub".toList, "x".toList)] (fun s => s) ("/r".toList) 0
      = [(".".toList, "build".toList), ("build/sub".toList, "x".toList)] := by
  exact ⟨by decide, by decide⟩

/-- Claim C2 (amended): in bulk-query mode, if any ancestor of candidate
`d` on the walk up to the invocation root carries a pattern matching
`d`'s base name, then `d` itself is excluded: its loop iteration emits
nothing, and (when no other key shares its relative path) no entry with
`d`'s relative path appears in the output.  Directories beneath `d` are
not thereby excluded; each is tested against its own base name. -/
theorem claim_C2_amended (all : List (Str × Str)) (ap : Str → Str)
    (base : Str) (max_depth : Int) (d : Str)
    (hskip : (ancestors base d).any (ancestorHit all d) = true)
    (hinj : ∀ k ∈ keysOf all, k ≠ d → relAdj ap k base ≠ relAdj ap d base) :
    emitEntry all ap base max_depth d = none ∧
    ∀ pr ∈ processRecursive all ap base max_depth, pr.1 ≠ relAdj ap d base := by
  have hsk : isSkipped all base d = true := by
    rw [isSkipped_eq_any]
    exact hskip
  constructor
  · unfold emitEntry
    by_cases h1 : max_depth > 0 ∧ depthOf ap base d > max_depth
    · rw [if_pos h1]
    · rw [if_neg h1, if_pos hsk]
  · intro pr hpr
    rcases mem_processRecursive hpr with ⟨k, hk, he⟩
    rcases emitEntry_eq_some he with ⟨hfst, -, -, hnskip, -⟩
    by_cases hkd : k = d
    · subst hkd
      rw [hnskip] at hsk
      exact absurd hsk (by simp)
    · rw [hfst]
      exact hinj k hk hkd

/-- Claim C2 witness: the amended claim at the counterexample's input. -/
theorem claim_C2_witness :
    ((ancestors ("/r".toList) ("/r/build".toList)).any
      (ancestorHit
        [("/r".toList, "build".toList), ("/r/build".toList, "y".toList)]
        ("/r/build".toList)) = true) ∧
    emitEntry [("/r".toList, "build".toList), ("/r/build".toList, "y".toList)]
      (fun s => s) ("/r".toList) 0 ("/r/build".toList) = none :=
  ⟨by decide,
    (claim_C2_amended
      [("/r".toList, "build".toList), ("/r/build".toList, "y".toList)]
      (fun s => s) ("/r".toList) 0 ("/r/build".toList)
      (by decide) (by decide)).1⟩

/-- Claim C3: the depth of a directory is the separator count of its
root-relative path plus one, with the root at `0`; with a positive
`max_depth`, a directory whose depth exceeds it contributes nothing;
with `max_depth = 1` every output entry is the root or an immediate
child (no grandchildren); and `max_depth = 0` means unlimited — the
walk runs with the depth test removed. -/
theorem claim_C3 :
    (∀ (ap : Str → Str) (base d : Str), depthOf ap base d =
        (if relAdj ap d base = dot then 0
         else (countSlash (relAdj ap d base) : Int) + 1)) ∧
    (∀ (all : List (Str × Str)) (ap : Str → Str) (base : Str)
        (max_depth : Int) (d : Str), 0 < max_depth →
        max_depth < depthOf ap base d →
        emitEntry all ap base max_depth d = none) ∧
    (∀ (all : List (Str × Str)) (ap : Str → Str) (base : Str)
        (pr : Str × Str), pr ∈ processRecursive all ap base 1 →
        pr.1 = dot ∨ countSlash pr.1 = 0) ∧
    (∀ (all : List (Str × Str)) (ap : Str → Str) (base : Str),
        processRecursive all ap base 0
          = (sortKeysBy countSlash (keysOf all)).filterMap
              (emitEntryUnbounded all ap base)) := by
  refine ⟨fun ap base d => rfl, ?_, ?_, ?_⟩
  · intro all ap base max_depth d h1 h2
    unfold emitEntry
    rw [if_pos ⟨h1, h2⟩]
  · intro all ap base pr hpr
    rcases mem_processRecursive hpr with ⟨k, -, he⟩
    rcases emitEntry_eq_some he with ⟨hfst, -, -, -, hdep⟩
    have h1 := hdep (by norm_num)
    unfold depthOf at h1
    by_cases hr : relAdj ap k base = dot
    · left
      rw [hfst, hr]
    · right
      rw [if_neg hr] at h1
      rw [hfst]
      omega
  · intro all ap base
    rfl

/-- Claim C3 witness: a grandchild at depth 2 is dropped under
`max_depth = 1`. -/
theorem claim_C3_witness :
    ((0 : Int) < 1) ∧
    ((1 : Int) < depthOf (fun s => s) ("/r".toList) ("/r/a/b".toList)) ∧
    emitEntry [("/r/a/b".toList, "x".toList)] (fun s => s) ("/r".toList) 1
      ("/r/a/b".toList) = none :=
  ⟨by decide, by decide,
    claim_C3.2.1 [("/r/a/b".toList, "x".toList)] (fun s => s) ("/r".toList) 1
      ("/r/a/b".toList) (by decide) (by decide)⟩

/-- Claim C5: a directory whose property is absent, empty or
whitespace-only yields no collected pair and is not used for pruning:
the point query returns `None` for it, the non-recursive walk collects
nothing, a key with the empty stored value emits nothing, an
all-whitespace value contributes no pruning pattern, and the bulk
parser only ever stores stripped values (so a whitespace-only property
is stored as the empty string). -/
theorem claim_C5 :
    (get_svn_ignore none = none) ∧
    (∀ s : Str, pyStrip s = [] → get_svn_ignore (some s) = none) ∧
    (∀ (env : Env) (path : Str) (max_depth threads : Int),
        get_svn_ignore (env.propget path) = none →
        process_directory env path false max_depth threads = []) ∧
    (∀ (all : List (Str × Str)) (ap : Str → Str) (base : Str)
        (max_depth : Int) (d : Str), lookupD all d = some [] →
        emitEntry all ap base max_depth d = none) ∧
    (∀ v : Str, pyStrip v = [] → patternLines v = []) ∧
    (∀ (ap : Str → Str) (q : Option Str) (kv : Str × Str),
        kv ∈ get_all_svn_ignores ap q → pyStrip kv.2 = kv.2) ∧
    (∀ (ap : Str → Str) (q : Option Str) (kv : Str × Str),
        kv ∈ get_all_svn_ignores ap q → pyStrip kv.2 = [] → kv.2 = []) := by
  refine ⟨rfl, ?_, ?_, ?_, ?_, ?_, ?_⟩
  · intro s h
    simp [get_svn_ignore, h]
  · intro env path max_depth threads h
    simp [process_directory, h]
  · intro all ap base max_depth d hl
    unfold emitEntry
    by_cases h1 : max_depth > 0 ∧ depthOf ap base d > max_depth
    · rw [if_pos h1]
    · rw [if_neg h1]
      by_cases h2 : isSkipped all base d = true
      · rw [if_pos h2]
      · rw [if_neg h2, hl]
        rfl
  · exact fun v h => patternLines_of_space h
  · exact fun ap q kv h => get_all_values_stripped ap q kv h
  · intro ap q kv h hnil
    rw [← get_all_values_stripped ap q kv h, hnil]

/-- Claim C5 witness: a whitespace-only point-query result yields
absence. -/
theorem claim_C5_witness :
    pyStrip ("  \t ".toList) = [] ∧
    get_svn_ignore (some ("  \t ".toList)) = none :=
  ⟨by decide, claim_C5.2.1 ("  \t ".toList) (by decide)⟩

/-- Claim C6: when the `svn info` probe fails, the command returns the
error outcome regardless of every other input — before any traversal —
and the output file keeps its previous content. -/
theorem claim_C6 (env : Env) (path : Str) (recursive : Bool)
    (max_depth threads : Int) (h : env.infoOk = false) :
    convertCmd env path recursive max_depth threads
      = ConvertOutcome.notWorkingCopy ∧
    ∀ prev, runConvert env prev path recursive max_depth threads = prev := by
  have hc : convertCmd env path recursive max_depth threads
      = ConvertOutcome.notWorkingCopy := by
    unfold convertCmd
    rw [if_pos h]
  refine ⟨hc, fun prev => ?_⟩
  unfold runConvert
  rw [hc]

/-- Claim C6 witness: a concrete failed probe. -/
theorem claim_C6_witness :
    (Env.mk false (fun _ => none) (fun _ => none) (fun s => s)).infoOk = false ∧
    convertCmd (Env.mk false (fun _ => none) (fun _ => none) (fun s => s))
      ("/r".toList) true 0 4 = ConvertOutcome.notWorkingCopy ∧
    runConvert (Env.mk false (fun _ => none) (fun _ => none) (fun s => s))
      ("old".toList) ("/r".toList) true 0 4 = "old".toList :=
  ⟨rfl,
    (claim_C6 (Env.mk false (fun _ => none) (fun _ => none) (fun s => s))
      ("/r".toList) true 0 4 rfl).1,
    (claim_C6 (Env.mk false (fun _ => none) (fun _ => none) (fun s => s))
      ("/r".toList) true 0 4 rfl).2 ("old".toList)⟩

/-- Claim C7: a failed or empty individual property query yields absence
only — `get_svn_ignore` returns `None`, `get_all_svn_ignores` returns
the empty mapping instead of propagating the error — and a run whose
every property query fails still completes (reporting that nothing was
found rather than failing the conversion). -/
theorem claim_C7 :
    (get_svn_ignore none = none) ∧
    (∀ s : Str, pyStrip s = [] → get_svn_ignore (some s) = none) ∧
    (∀ ap : Str → Str, get_all_svn_ignores ap none = []) ∧
    (∀ (ap : Str → Str) (path : Str) (recursive : Bool)
        (max_depth threads : Int),
      convertCmd (Env.mk true (fun _ => none) (fun _ => none) ap)
        path recursive max_depth threads = ConvertOutcome.noConfigs) := by
  refine ⟨rfl, ?_, fun ap => rfl, ?_⟩
  · intro s h
    simp [get_svn_ignore, h]
  · intro ap path recursive max_depth threads
    have hp : process_directory (Env.mk true (fun _ => none) (fun _ => none) ap)
        path recursive max_depth
        (if recursive ∧ threads > 10 then 10 else threads) = [] := by
      cases recursive with
      | false => rfl
      | true =>
          show processRecursive (get_all_svn_ignores ap none) ap (ap path)
            max_depth = []
          rfl
    unfold convertCmd
    rw [if_neg (by simp : ¬(true = false)), if_pos hp]

/-- Claim C7 witness: a fully failing recursive run reports no configs. -/
theorem claim_C7_witness :
    convertCmd (Env.mk true (fun _ => none) (fun _ => none) (fun s => s))
      ("/r".toList) true 0 4 = ConvertOutcome.noConfigs :=
  claim_C7.2.2.2 (fun s => s) ("/r".toList) true 0 4

/-- Claim C8 counterexample: on a valid working copy (the `svn info`
probe succeeds) in which no ignore configuration is collected, the
command returns early and the output file is NOT written — its old
content survives — refuting "for every run on a valid working copy, the
destination output file is written". -/
theorem claim_C8_counterexample :
    (Env.mk true (fun _ => none) (fun _ => none) (fun s => s)).infoOk = true ∧
    convertCmd (Env.mk true (fun _ => none) (fun _ => none) (fun s => s))
      ("/r".toList) false 0 4 = ConvertOutcome.noConfigs ∧
    runConvert (Env.mk true (fun _ => none) (fun _ => none) (fun s => s))
      ("old".toList) ("/r".toList) false 0 4 = "old".toList :=
  ⟨rfl, by decide, by decide⟩

/-- Claim C8 (amended): on a valid working copy where at least one
ignore entry is collected, the output file is written with the rendered
gitignore text, unconditionally overwriting any previous content. -/
theorem claim_C8_amended (env : Env) (path : Str) (recursive : Bool)
    (max_depth threads : Int) (hinfo : env.infoOk = true)
    (hne : process_directory env path recursive max_depth threads ≠ []) :
    convertCmd env path recursive max_depth threads
      = ConvertOutcome.written (convert_to_gitignore
          (process_directory env path recursive max_depth threads)) ∧
    ∀ prev, runConvert env prev path recursive max_depth threads
      = convert_to_gitignore
          (process_directory env path recursive max_depth threads) := by
  have hth : process_directory env path recursive max_depth
      (if recursive ∧ threads > 10 then 10 else threads)
      = process_directory env path recursive max_depth threads := rfl
  have hc : convertCmd env path recursive max_depth threads
      = ConvertOutcome.written (convert_to_gitignore
          (process_directory env path recursive max_depth threads)) := by
    unfold convertCmd
    rw [hinfo, if_neg (by simp : ¬(true = false)), hth, if_neg hne]
  refine ⟨hc, fun prev => ?_⟩
  unfold runConvert
  rw [hc]

/-- Claim C8 witness: a run that collects one entry overwrites the old
file content with the rendered text. -/
theorem claim_C8_witness :
    (Env.mk true (fun _ => some ("*.log".toList)) (fun _ => none)
      (fun s => s)).infoOk = true ∧
    process_directory
      (Env.mk true (fun _ => some ("*.log".toList)) (fun _ => none)
        (fun s => s)) ("/r".toList) false 0 4 ≠ [] ∧
    runConvert
      (Env.mk true (fun _ => some ("*.log".toList)) (fun _ => none)
        (fun s => s)) ("old".toList) ("/r".toList) false 0 4
      = convert_to_gitignore (process_directory
          (Env.mk true (fun _ => some ("*.log".toList)) (fun _ => none)
            (fun s => s)) ("/r".toList) false 0 4) :=
  ⟨rfl, by decide,
    (claim_C8_amended
      (Env.mk true (fun _ => some ("*.log".toList)) (fun _ => none)
        (fun s => s)) ("/r".toList) false 0 4 rfl (by decide)).2
      ("old".toList)⟩

/-- Claim C9: the conversion is deterministic — two runs whose external
probes and property queries return the same raw text (and with the same
`abspath` environment) produce identical outcomes and byte-identical
output text. -/
theorem claim_C9 (e1 e2 : Env) (path : Str) (recursive : Bool)
    (max_depth threads : Int) (prev : Str)
    (h1 : e1.infoOk = e2.infoOk) (h2 : e1.propget = e2.propget)
    (h3 : e1.bulk = e2.bulk) (h4 : e1.abspath = e2.abspath) :
    convertCmd e1 path recursive max_depth threads
      = convertCmd e2 path recursive max_depth threads ∧
    runConvert e1 prev path recursive max_depth threads
      = runConvert e2 prev path recursive max_depth threads := by
  have he : e1 = e2 := by
    cases e1
    cases e2
    simp only [Env.mk.injEq]
    exact ⟨h1, h2, h3, h4⟩
  subst he
  exact ⟨rfl, rfl⟩

/-- Claim C9 witness: the theorem applied to one concrete environment
twice. -/
theorem claim_C9_witness :
    convertCmd (Env.mk true (fun _ => some ("*.log".toList)) (fun _ => none)
        (fun s => s)) ("/r".toList) false 0 4
      = convertCmd (Env.mk true (fun _ => some ("*.log".toList)) (fun _ => none)
        (fun s => s)) ("/r".toList) false 0 4 ∧
    runConvert (Env.mk true (fun _ => some ("*.log".toList)) (fun _ => none)
        (fun s => s)) ("old".toList) ("/r".toList) false 0 4
      = runConvert (Env.mk true (fun _ => some ("*.log".toList)) (fun _ => none)
        (fun s => s)) ("old".toList) ("/r".toList) false 0 4 :=
  claim_C9
    (Env.mk true (fun _ => some ("*.log".toList)) (fun _ => none) (fun s => s))
    (Env.mk true (fun _ => some ("*.log".toList)) (fun _ => none) (fun s => s))
    ("/r".toList) false 0 4 ("old".toList) rfl rfl rfl rfl

/-- Claim C10: the `threads` parameter does not influence the result —
for any two positive thread counts, `process_directory` returns the
same list of pairs and the command's outcome and written text are
identical. -/
theorem claim_C10 (env : Env) (path : Str) (recursive : Bool)
    (max_depth t1 t2 : Int) (prev : Str) (h1 : 0 < t1) (h2 : 0 < t2) :
    process_directory env path recursive max_depth t1
      = process_directory env path recursive max_depth t2 ∧
    convertCmd env path recursive max_depth t1
      = convertCmd env path recursive max_depth t2 ∧
    runConvert env prev path recursive max_depth t1
      = runConvert env prev path recursive max_depth t2 := by
  have hp : ∀ a b : Int, process_directory env path recursive max_depth a
      = process_directory env path recursive max_depth b := fun a b => rfl
  have hc : convertCmd env path recursive max_depth t1
      = convertCmd env path recursive max_depth t2 := by
    unfold convertCmd
    rw [hp (if recursive ∧ t1 > 10 then 10 else t1)
        (if recursive ∧ t2 > 10 then 10 else t2)]
  refine ⟨hp t1 t2, hc, ?_⟩
  unfold runConvert
  rw [hc]

/-- Claim C10 witness: thread counts 1 and 10 agree on a concrete run. -/
theorem claim_C10_witness :
    ((0 : Int) < 1) ∧ ((0 : Int) < 10) ∧
    process_directory
        (Env.mk true (fun _ => some ("*.log".toList)) (fun _ => none)
          (fun s => s)) ("/r".toList) false 0 1
      = process_directory
        (Env.mk true (fun _ => some ("*.log".toList)) (fun _ => none)
          (fun s => s)) ("/r".toList) false 0 10 :=
  ⟨by decide, by decide,
    (claim_C10
      (Env.mk true (fun _ => some ("*.log".toList)) (fun _ => none)
        (fun s => s)) ("/r".toList) false 0 1 10 ("old".toList)
      (by decide) (by decide)).1⟩

end Svn2Git
